import Mathlib

/-!
Shallow embedding of the query engine in `src/internals/query/mod.rs`
(archetype-based ECS query evaluation, chunk iteration and the parallel
chunk splitter), together with proofs of the specified properties.

Component type ids, archetype indices and world ids are represented as
`Nat`.  Collaborator types that live outside the provided source file
(the filter algebra, the layout index, groups and the view fetch) are
modelled from the specification; each such definition is marked
`Modelled from the spec:` in its doc comment.
-/

/-- An archetype: the set of component types (the layout) stored for all
entities sharing that exact set.  Only the layout is relevant to query
evaluation. -/
structure Archetype where
  layout : List Nat
  deriving Repr, DecidableEq

instance : Inhabited Archetype := ⟨⟨[]⟩⟩

/-- A half-open index range `[start, stop)`, mirroring Rust's
`Range<usize>` (whose `end` field is called `stop` here because `end` is
a Lean keyword). -/
structure SRange where
  start : Nat
  stop : Nat
  deriving Repr, DecidableEq

/-- Number of elements of the range; Rust's `Range::len`, which is `0`
whenever `start >= stop` (truncated subtraction). -/
def SRange.size (r : SRange) : Nat := r.stop - r.start

/-- `QueryResult` from `mod.rs`: the borrowed slice of matching archetype
indices, the sub-range which should be accessed, and the ordered flag. -/
structure QueryResult where
  index : List Nat
  range : SRange
  is_ordered : Bool
  deriving Repr, DecidableEq

/-- `QueryResult::unordered`: access the whole slice, unordered. -/
def QueryResult.unordered (index : List Nat) : QueryResult :=
  ⟨index, ⟨0, index.length⟩, false⟩

/-- `QueryResult::ordered`: access the whole slice, storage order known. -/
def QueryResult.ordered (index : List Nat) : QueryResult :=
  ⟨index, ⟨0, index.length⟩, true⟩

/-- `QueryResult::index()`: drop `range.start` elements, then keep
`range.len()` elements (the two `split_at` calls in the source). -/
def QueryResult.index_slice (r : QueryResult) : List Nat :=
  (r.index.drop r.range.start).take r.range.size

/-- `QueryResult::len()`: the length of the sub-range. -/
def QueryResult.size (r : QueryResult) : Nat := r.range.size

/-- `QueryResult::is_empty()`: whether the accessed slice is empty. -/
def QueryResult.is_empty (r : QueryResult) : Bool := r.index_slice.isEmpty

/-- `QueryResult::split_at(index)`: left keeps `range.start..index`,
right keeps `index..range.end`; both share the slice and the flag. -/
def QueryResult.split_at (r : QueryResult) (i : Nat) : QueryResult × QueryResult :=
  (⟨r.index, ⟨r.range.start, i⟩, r.is_ordered⟩,
   ⟨r.index, ⟨i, r.range.stop⟩, r.is_ordered⟩)

/-- `SubGroup` from the storage module.  Modelled from the spec: an
`(offset, length)` pair identifying a contiguous region of a group. -/
structure SubGroup where
  offset : Nat
  length : Nat
  deriving Repr, DecidableEq

/-- Modelled from the spec: a `Group` (missing `storage/group.rs`) is an
ordered list of archetype indices together with
`exact_match(components) -> Option<SubGroup>`, which reports a
contiguous region of the group matched by the exact component set. -/
structure EcsGroup where
  archetypes : List Nat
  exact_match : List Nat → Option SubGroup

instance : Inhabited EcsGroup := ⟨⟨[], fun _ => none⟩⟩

/-- Modelled from the spec: indexing a group by a `SubGroup`
(`world.groups()[group][subgroup]` in the source) yields the contiguous
region of the group's archetype list named by the subgroup. -/
def EcsGroup.slice (g : EcsGroup) (s : SubGroup) : List Nat :=
  (g.archetypes.drop s.offset).take s.length

/-- The per-world cache of a query (`enum Cache` in `mod.rs`). -/
inductive Cache where
  | unordered (archetypes : List Nat) (seen : Nat)
  | ordered (group : Nat) (subgroup : SubGroup)
  deriving Repr, DecidableEq

/-- Modelled from the spec: the static filter algebra (missing
`query/filter.rs`).  Primitive filters are `Passthrough`,
`ComponentRequired` and `ComponentForbidden`; compound filters are
conjunction, disjunction and negation. -/
inductive EntityFilter where
  | passthrough
  | required (t : Nat)
  | forbidden (t : Nat)
  | conj (a b : EntityFilter)
  | disj (a b : EntityFilter)
  | neg (a : EntityFilter)
  deriving Repr, DecidableEq

/-- Modelled from the spec: the layout predicate of a static filter,
a pure function of the archetype's component set. -/
def EntityFilter.matches : EntityFilter → List Nat → Bool
  | .passthrough, _ => true
  | .required t, l => l.contains t
  | .forbidden t, l => !(l.contains t)
  | .conj a b, l => a.matches l && b.matches l
  | .disj a b, l => a.matches l || b.matches l
  | .neg a, l => !(a.matches l)

/-- Modelled from the spec: `GroupMatcher::can_match_group` is true iff
the filter is a conjunction of `ComponentRequired` primitives, with no
negations and no disjunctions. -/
def EntityFilter.can_match_group : EntityFilter → Bool
  | .required _ => true
  | .conj a b => a.can_match_group && b.can_match_group
  | _ => false

/-- The component types required by the filter, in syntactic order. -/
def EntityFilter.required_list : EntityFilter → List Nat
  | .required t => [t]
  | .conj a b => a.required_list ++ b.required_list
  | _ => []

/-- Modelled from the spec: `GroupMatcher::group_components` is the
sorted list of required component types. -/
def EntityFilter.group_components (f : EntityFilter) : List Nat :=
  f.required_list.insertionSort (· ≤ ·)

/-- The `StorageAccessor` interface of the world (spec §6.1): world id,
the archetype vector, the declared groups, group lookup by component
type, and the split-world access check. -/
structure StorageAccessor where
  id : Nat
  archetypes : List Archetype
  groups : List EcsGroup
  group : Nat → Option (Nat × EcsGroup)
  can_access_archetype : Nat → Bool

/-- The layout of the archetype at index `i` of the world. -/
def StorageAccessor.layout_at (w : StorageAccessor) (i : Nat) : List Nat :=
  (w.archetypes.getD i default).layout

/-- Modelled from the spec: `LayoutIndex::search_from(filter, cursor)`
(missing storage module) yields every archetype at index `>= cursor`
whose layout satisfies the static filter, in index order. -/
def search_from (archetypes : List Archetype) (f : EntityFilter) (cursor : Nat) : List Nat :=
  (List.range archetypes.length).filter
    (fun i => decide (cursor ≤ i) && f.matches ((archetypes.getD i default).layout))

/-- The query: its static filter and the per-world cache map
(`layout_matches: HashMap<WorldId, Cache>`), modelled as an association
list keyed by world id. -/
structure Query where
  filter : EntityFilter
  layout_matches : List (Nat × Cache)
  deriving Repr, DecidableEq

/-- Association-list lookup, modelling `HashMap::get`. -/
def cacheLookup : List (Nat × Cache) → Nat → Option Cache
  | [], _ => none
  | (k, c) :: rest, wid => if k = wid then some c else cacheLookup rest wid

/-- Association-list insert/replace, modelling the entry API's insertion
combined with the in-place mutation of the cached entry. -/
def cacheInsert : List (Nat × Cache) → Nat → Cache → List (Nat × Cache)
  | [], wid, c => [(wid, c)]
  | (k, c0) :: rest, wid, c =>
      if k = wid then (k, c) :: rest else (k, c0) :: cacheInsert rest wid c

/-- Lines 151-159 of `mod.rs`: if the filter can match a group, take the
first required component, look up a candidate group in the world, and
consult `group.exact_match(required_components)`; `some` exactly when an
ordered cache can be constructed. -/
def group_cache (f : EntityFilter) (w : StorageAccessor) : Option Cache :=
  if f.can_match_group then
    (f.group_components.head?.bind (fun t => w.group t)).bind
      (fun p => (p.2.exact_match f.group_components).map
        (fun sub => Cache.ordered p.1 sub))
  else none

/-- Lines 149-169 of `mod.rs`: the cache installed by `or_insert_with`
when the world has no entry: the group cache when available, else an
empty unordered cache. -/
def init_cache (f : EntityFilter) (w : StorageAccessor) : Cache :=
  (group_cache f w).getD (Cache.unordered [] 0)

/-- Lines 173-187 of `mod.rs` (cache refresh): an unordered cache
resumes the layout-index search from `seen`, appends every returned
index, and sets `seen` to the world's archetype count; an ordered cache
is left unchanged. -/
def update_cache (f : EntityFilter) (w : StorageAccessor) : Cache → Cache
  | .unordered archetypes seen =>
      .unordered (archetypes ++ search_from w.archetypes f seen) w.archetypes.length
  | .ordered g s => .ordered g s

/-- Lines 173-187 of `mod.rs` (result construction): unordered caches
yield their vector as an unordered result; ordered caches yield the
group's subrange slice as an ordered result. -/
def cache_result (w : StorageAccessor) : Cache → QueryResult
  | .unordered archetypes _ => QueryResult.unordered archetypes
  | .ordered g s => QueryResult.ordered ((w.groups.getD g default).slice s)

/-- The cache held for `w` after one evaluation of the query. -/
def next_cache (q : Query) (w : StorageAccessor) : Cache :=
  update_cache q.filter w ((cacheLookup q.layout_matches w.id).getD (init_cache q.filter w))

/-- The `QueryResult` produced by one evaluation of the query. -/
def query_result_of (q : Query) (w : StorageAccessor) : QueryResult :=
  cache_result w (next_cache q w)

/-- `Query::evaluate_query` (lines 144-192 of `mod.rs`): initialize or
refresh the per-world cache, build the `QueryResult`, then
`validate_archetype_access` asserts that the split-world accessor
permits every archetype in the result; the panic on violation is
modelled as `none`. -/
def evaluate_query (q : Query) (w : StorageAccessor) : Option (Query × QueryResult) :=
  if (query_result_of q w).index_slice.all w.can_access_archetype then
    some (⟨q.filter, cacheInsert q.layout_matches w.id (next_cache q w)⟩,
          query_result_of q w)
  else none

/-- `Query::filter` (lines 119-130 of `mod.rs`), named `add_filter`
because `Query.filter` is the field projection in Lean: the new query's
filter is the conjunction (`BitAnd`) of the old filter and the added
one, and the cache map is `HashMap::default()` (empty). -/
def Query.add_filter (q : Query) (t : EntityFilter) : Query :=
  ⟨EntityFilter.conj q.filter t, []⟩

/-! ### Chunk iteration

`ChunkIter` (lines 731-764) holds the view's fetch iterator (`inner`),
an iterator over archetype indices, the dynamic filter, and `max_count`.
The dynamic filter's `matches_archetype` is modelled as a pure predicate
`dyn` on fetches; the view's `Fetch` type is an arbitrary type `α`, and
the view's `fetch` function (`V::fetch`, modelled from the spec: the
iterator walks the archetype indices in the result, i.e. `index()`, and
builds one fetch per index) is `mkFetch` mapped over `index_slice`. -/

/-- The state of a `ChunkIter` (or of a parallel leaf `par_iter::Iter`,
which has the same shape): remaining fetches, remaining archetype
indices, and the constant `max_count`. -/
structure ChunkIterState (α : Type) where
  inner : List α
  indices : List Nat
  max_count : Nat
  deriving Repr, DecidableEq

/-- `ChunkIter::size_hint` (line 763) and `par_iter::Iter::size_hint`
(line 831): always `(0, Some(max_count))`. -/
def ChunkIterState.size_hint (s : ChunkIterState α) : Nat × Option Nat :=
  (0, some s.max_count)

/-- Construction of the iterator state, as in `iter_chunks_unchecked`
(lines 253-268) and `fold_with` (lines 914-928): `indices` iterates the
full underlying `result.index` slice, `max_count` is its length, and
`inner` is the view's fetch iterator over the result (modelled from the
spec: one fetch per archetype index in `result.index()`). -/
def chunk_iter_of {α : Type} (mkFetch : Nat → α) (r : QueryResult) : ChunkIterState α :=
  ⟨r.index_slice.map mkFetch, r.index, r.index.length⟩

/-- `ChunkIter::next` (lines 752-761): for each fetch produced by the
view iterator, pull the paired archetype index (`unwrap`, modelled as
the outer `none` when the index iterator is exhausted — a panic), test
the dynamic filter, and yield the accepted chunk `(archetype index,
fetch)`; `some none` is normal exhaustion. -/
def chunkIterNext {α : Type} (dyn : α → Bool) :
    ChunkIterState α → Option (Option ((Nat × α) × ChunkIterState α))
  | ⟨[], _, _⟩ => some none
  | ⟨_ :: _, [], _⟩ => none
  | ⟨f :: fs, i :: is, m⟩ =>
      if dyn f then some (some ((i, f), ⟨fs, is, m⟩))
      else chunkIterNext dyn ⟨fs, is, m⟩
  termination_by s => s.inner.length

/-- Draining the chunk iterator to a list of yielded chunks; `none` when
the iteration would panic (index iterator exhausted early). -/
def chunkIterRunAux {α : Type} (dyn : α → Bool) :
    List α → List Nat → Option (List (Nat × α))
  | [], _ => some []
  | _ :: _, [] => none
  | f :: fs, i :: is =>
      if dyn f then Option.map (fun out => (i, f) :: out) (chunkIterRunAux dyn fs is)
      else chunkIterRunAux dyn fs is

/-- Draining a `ChunkIterState`. -/
def chunkIterRun {α : Type} (dyn : α → Bool) (s : ChunkIterState α) :
    Option (List (Nat × α)) :=
  chunkIterRunAux dyn s.inner s.indices

/-- The complete chunk iteration over a `QueryResult`: this is what both
`iter_chunks_unchecked` (sequentially) and a parallel leaf's `fold_with`
perform over their respective results. -/
def run_chunks {α : Type} (mkFetch : Nat → α) (dyn : α → Bool) (r : QueryResult) :
    Option (List (Nat × α)) :=
  chunkIterRun dyn (chunk_iter_of mkFetch r)

/-- `ParChunkIter::split` (lines 887-908), projected onto its
`QueryResult` (the world accessor and filter handle are shared
unchanged): the midpoint is computed as `result.len() / 2` and passed to
`split_at`; the right part becomes `self`, the left part is the sibling
when non-empty. -/
def par_split (r : QueryResult) : QueryResult × Option QueryResult :=
  let index := r.size / 2
  let p := r.split_at index
  (p.2, if !p.1.is_empty then some p.1 else none)

/-! ### Soundness predicates -/

/-- A cache entry names only archetypes whose layout satisfies the
query's static filter (the invariant of §3 of the spec for entries
admitted by `evaluate_query`). -/
def CacheSound (f : EntityFilter) (w : StorageAccessor) : Cache → Prop
  | .unordered l _ => ∀ i ∈ l, f.matches (w.layout_at i) = true
  | .ordered gi sub =>
      ∀ i ∈ (w.groups.getD gi default).slice sub, f.matches (w.layout_at i) = true

/-- Well-formedness of the world's groups with respect to a filter
(spec §3: the archetypes of a subgroup returned by `exact_match` are
guaranteed by construction to match the component set). -/
def GroupsSound (f : EntityFilter) (w : StorageAccessor) : Prop :=
  ∀ t gi g sub, w.group t = some (gi, g) →
    g.exact_match f.group_components = some sub →
    ∀ i ∈ (w.groups.getD gi default).slice sub, ∀ c ∈ f.group_components, c ∈ w.layout_at i

/-! ### Basic lemmas -/

theorem contains_iff_mem (l : List Nat) (t : Nat) : l.contains t = true ↔ t ∈ l := by
  simp [List.contains]

theorem mem_group_components_iff (f : EntityFilter) (c : Nat) :
    c ∈ f.group_components ↔ c ∈ f.required_list := by
  unfold EntityFilter.group_components
  exact (List.perm_insertionSort (· ≤ ·) f.required_list).mem_iff

theorem matches_of_required (f : EntityFilter) (l : List Nat)
    (hc : f.can_match_group = true) (h : ∀ c ∈ f.required_list, c ∈ l) :
    f.matches l = true := by
  induction f with
  | passthrough => rfl
  | required t =>
      simp only [EntityFilter.matches, contains_iff_mem]
      exact h t (by simp [EntityFilter.required_list])
  | forbidden t => simp [EntityFilter.can_match_group] at hc
  | conj a b iha ihb =>
      simp only [EntityFilter.can_match_group, Bool.and_eq_true] at hc
      simp only [EntityFilter.matches, Bool.and_eq_true]
      refine ⟨iha hc.1 ?_, ihb hc.2 ?_⟩ <;>
        · intro c hcmem
          exact h c (by simp [EntityFilter.required_list, hcmem])
  | disj a b iha ihb => simp [EntityFilter.can_match_group] at hc
  | neg a iha => simp [EntityFilter.can_match_group] at hc

theorem mem_search_from (archetypes : List Archetype) (f : EntityFilter)
    (cursor i : Nat) :
    i ∈ search_from archetypes f cursor ↔
      i < archetypes.length ∧ cursor ≤ i ∧
        f.matches ((archetypes.getD i default).layout) = true := by
  simp only [search_from, List.mem_filter, List.mem_range, Bool.and_eq_true,
    decide_eq_true_eq]

theorem search_from_nodup (archetypes : List Archetype) (f : EntityFilter)
    (cursor : Nat) : (search_from archetypes f cursor).Nodup :=
  (List.nodup_range _).filter _

theorem index_slice_unordered (l : List Nat) :
    (QueryResult.unordered l).index_slice = l := by
  simp [QueryResult.unordered, QueryResult.index_slice, SRange.size]

theorem index_slice_ordered (l : List Nat) :
    (QueryResult.ordered l).index_slice = l := by
  simp [QueryResult.ordered, QueryResult.index_slice, SRange.size]

theorem cacheLookup_cacheInsert_self (m : List (Nat × Cache)) (k : Nat) (c : Cache) :
    cacheLookup (cacheInsert m k c) k = some c := by
  induction m with
  | nil => simp [cacheInsert, cacheLookup]
  | cons p rest ih =>
      by_cases h : p.1 = k
      · simp [cacheInsert, cacheLookup, h]
      · simp [cacheInsert, cacheLookup, h, ih]

theorem evaluate_query_some_iff (q : Query) (w : StorageAccessor)
    (q' : Query) (r : QueryResult) :
    evaluate_query q w = some (q', r) ↔
      ((query_result_of q w).index_slice.all w.can_access_archetype = true ∧
        q' = ⟨q.filter, cacheInsert q.layout_matches w.id (next_cache q w)⟩ ∧
        r = query_result_of q w) := by
  unfold evaluate_query
  by_cases h : (query_result_of q w).index_slice.all w.can_access_archetype = true
  · simp only [h, if_true, Option.some.injEq, Prod.mk.injEq, true_and]
    constructor
    · intro he; exact ⟨he.1.symm, he.2.symm⟩
    · intro he; exact ⟨he.1.symm, he.2.symm⟩
  · simp [h]

theorem group_cache_some_elim (f : EntityFilter) (w : StorageAccessor) (c : Cache)
    (h : group_cache f w = some c) :
    ∃ t gi g sub, f.can_match_group = true ∧
      f.group_components.head? = some t ∧
      w.group t = some (gi, g) ∧
      g.exact_match f.group_components = some sub ∧
      c = Cache.ordered gi sub := by
  unfold group_cache at h
  by_cases hc : f.can_match_group = true
  · rw [hc] at h
    simp only [if_true, Option.bind_eq_some, Option.map_eq_some'] at h
    obtain ⟨p, hp, sub, hsub, hcast⟩ := h
    obtain ⟨t, ht, hg⟩ := hp
    exact ⟨t, p.1, p.2, sub, hc, ht, by rw [← hg], hsub, hcast.symm⟩
  · simp only [Bool.not_eq_true] at hc
    rw [hc] at h
    simp at h

theorem group_cache_is_ordered (f : EntityFilter) (w : StorageAccessor)
    (l : List Nat) (seen : Nat) :
    group_cache f w ≠ some (Cache.unordered l seen) := by
  intro h
  obtain ⟨_, _, _, _, _, _, _, _, hcast⟩ := group_cache_some_elim f w _ h
  exact Cache.noConfusion hcast

theorem cacheSound_init (f : EntityFilter) (w : StorageAccessor)
    (hgroup : GroupsSound f w) : CacheSound f w (init_cache f w) := by
  unfold init_cache
  cases hgc : group_cache f w with
  | none => intro i hi; simp at hi
  | some c =>
      obtain ⟨t, gi, g, sub, hc, ht, hg, hexact, rfl⟩ :=
        group_cache_some_elim f w c hgc
      intro i hi
      refine matches_of_required f (w.layout_at i) hc ?_
      intro comp hcomp
      exact hgroup t gi g sub hg hexact i hi comp
        ((mem_group_components_iff f comp).mpr hcomp)

theorem cacheSound_update (f : EntityFilter) (w : StorageAccessor) (c : Cache)
    (h : CacheSound f w c) : CacheSound f w (update_cache f w c) := by
  cases c with
  | unordered l seen =>
      intro i hi
      rcases List.mem_append.mp hi with hmem | hmem
      · exact h i hmem
      · exact ((mem_search_from w.archetypes f seen i).mp hmem).2.2
  | ordered g s => exact h

theorem cacheSound_result (f : EntityFilter) (w : StorageAccessor) (c : Cache)
    (h : CacheSound f w c) :
    ∀ i ∈ (cache_result w c).index, f.matches (w.layout_at i) = true := by
  cases c with
  | unordered l seen => exact h
  | ordered g s => exact h

/-- Every archetype index named by the result of `evaluate_query`
satisfies the query's static filter, given that the previously cached
entries (if any) do and the world's groups are well-formed. -/
theorem evaluate_query_sound (q : Query) (w : StorageAccessor)
    (q' : Query) (r : QueryResult)
    (hcache : ∀ c, cacheLookup q.layout_matches w.id = some c → CacheSound q.filter w c)
    (hgroup : GroupsSound q.filter w)
    (he : evaluate_query q w = some (q', r)) :
    ∀ i ∈ r.index, q.filter.matches (w.layout_at i) = true := by
  obtain ⟨-, -, rfl⟩ := (evaluate_query_some_iff q w q' r).mp he
  refine cacheSound_result q.filter w (next_cache q w) ?_
  refine cacheSound_update q.filter w _ ?_
  cases hl : cacheLookup q.layout_matches w.id with
  | none => exact cacheSound_init q.filter w hgroup
  | some c => exact hcache c hl

theorem chunkIterRunAux_sound {α : Type} (dyn : α → Bool) (fs : List α)
    (is : List Nat) (out : List (Nat × α))
    (h : chunkIterRunAux dyn fs is = some out) :
    ∀ p ∈ out, p.1 ∈ is ∧ dyn p.2 = true := by
  induction fs generalizing is out with
  | nil =>
      simp only [chunkIterRunAux, Option.some.injEq] at h
      subst h; intro p hp; simp at hp
  | cons f fs ih =>
      cases is with
      | nil => simp [chunkIterRunAux] at h
      | cons i is' =>
          simp only [chunkIterRunAux] at h
          by_cases hd : dyn f = true
          · rw [if_pos hd] at h
            obtain ⟨out', hout', rfl⟩ := Option.map_eq_some'.mp h
            intro p hp
            rcases List.mem_cons.mp hp with rfl | hp'
            · exact ⟨List.mem_cons_self _ _, hd⟩
            · obtain ⟨h1, h2⟩ := ih is' out' hout' p hp'
              exact ⟨List.mem_cons_of_mem _ h1, h2⟩
          · rw [if_neg hd] at h
            intro p hp
            obtain ⟨h1, h2⟩ := ih is' out h p hp
            exact ⟨List.mem_cons_of_mem _ h1, h2⟩

/-- Draining the iterator agrees with repeatedly calling
`chunkIterNext`: the run is `none` exactly when some `next` panics, and
otherwise collects the yielded chunks in order. -/
theorem chunkIterRun_eq_next {α : Type} (dyn : α → Bool) (s : ChunkIterState α) :
    chunkIterRun dyn s =
      match chunkIterNext dyn s with
      | none => none
      | some none => some []
      | some (some (p, s')) => Option.map (fun out => p :: out) (chunkIterRun dyn s') := by
  obtain ⟨fs, is, m⟩ := s
  induction fs generalizing is with
  | nil => simp [chunkIterRun, chunkIterRunAux, chunkIterNext]
  | cons f fs ih =>
      cases is with
      | nil => simp [chunkIterRun, chunkIterRunAux, chunkIterNext]
      | cons i is' =>
          by_cases hd : dyn f = true
          · simp only [chunkIterRun, chunkIterRunAux, chunkIterNext, hd, if_true]
          · simp only [chunkIterRun, chunkIterRunAux, chunkIterNext, hd, if_false]
            exact ih is'

/-! ### Claim theorems -/

/-- C8: for every query and every additional filter, `Query::filter`
returns a new query whose filter is the conjunction (`BitAnd`) of the
old filter and the added one, and whose per-world cache
(`layout_matches`) is empty, so a later evaluation against any world
finds no cache entry and rebuilds its match set from scratch. -/
theorem add_filter_spec (q : Query) (t : EntityFilter) :
    (q.add_filter t).filter = EntityFilter.conj q.filter t ∧
    (q.add_filter t).layout_matches = [] ∧
    ∀ wid, cacheLookup (q.add_filter t).layout_matches wid = none :=
  ⟨rfl, rfl, fun _ => rfl⟩

/-- C10: for a `QueryResult` whose range lies within the bounds of its
underlying index slice and a split position between the range's
endpoints, `split_at` yields two results sharing the slice and the
ordered flag, with ranges `start..i` and `i..stop`, whose `index()`
slices concatenate to the original's and whose lengths add up. -/
theorem split_at_partition (r : QueryResult) (i : Nat)
    (h1 : r.range.start ≤ i) (h2 : i ≤ r.range.stop)
    (h3 : r.range.stop ≤ r.index.length) :
    (r.split_at i).1.index = r.index ∧
    (r.split_at i).2.index = r.index ∧
    (r.split_at i).1.is_ordered = r.is_ordered ∧
    (r.split_at i).2.is_ordered = r.is_ordered ∧
    (r.split_at i).1.range = ⟨r.range.start, i⟩ ∧
    (r.split_at i).2.range = ⟨i, r.range.stop⟩ ∧
    (r.split_at i).1.index_slice ++ (r.split_at i).2.index_slice = r.index_slice ∧
    (r.split_at i).1.size + (r.split_at i).2.size = r.size := by
  refine ⟨rfl, rfl, rfl, rfl, rfl, rfl, ?_, ?_⟩
  · show (r.index.drop r.range.start).take (i - r.range.start) ++
        (r.index.drop i).take (r.range.stop - i) =
        (r.index.drop r.range.start).take (r.range.stop - r.range.start)
    have hdrop : r.index.drop i = (r.index.drop r.range.start).drop (i - r.range.start) := by
      rw [List.drop_drop]
      congr 1
      omega
    have hsum : r.range.stop - r.range.start =
        (i - r.range.start) + (r.range.stop - i) := by omega
    rw [hdrop, hsum, List.take_add]
  · show (i - r.range.start) + (r.range.stop - i) = r.range.stop - r.range.start
    omega

/-- Witness for C10 at the concrete result `{index = [7, 8], range = 0..2,
ordered}` split at position 1. -/
theorem split_at_partition_witness :
    ((0 ≤ 1 ∧ 1 ≤ 2 ∧ 2 ≤ 2) ∧
      (((⟨[7, 8], ⟨0, 2⟩, true⟩ : QueryResult).split_at 1).1.index = [7, 8] ∧
       ((⟨[7, 8], ⟨0, 2⟩, true⟩ : QueryResult).split_at 1).2.index = [7, 8] ∧
       ((⟨[7, 8], ⟨0, 2⟩, true⟩ : QueryResult).split_at 1).1.is_ordered = true ∧
       ((⟨[7, 8], ⟨0, 2⟩, true⟩ : QueryResult).split_at 1).2.is_ordered = true ∧
       ((⟨[7, 8], ⟨0, 2⟩, true⟩ : QueryResult).split_at 1).1.range = ⟨0, 1⟩ ∧
       ((⟨[7, 8], ⟨0, 2⟩, true⟩ : QueryResult).split_at 1).2.range = ⟨1, 2⟩ ∧
       ((⟨[7, 8], ⟨0, 2⟩, true⟩ : QueryResult).split_at 1).1.index_slice ++
         ((⟨[7, 8], ⟨0, 2⟩, true⟩ : QueryResult).split_at 1).2.index_slice = [7, 8] ∧
       ((⟨[7, 8], ⟨0, 2⟩, true⟩ : QueryResult).split_at 1).1.size +
         ((⟨[7, 8], ⟨0, 2⟩, true⟩ : QueryResult).split_at 1).2.size = 2)) :=
  ⟨⟨by decide, by decide, by decide⟩,
    split_at_partition ⟨[7, 8], ⟨0, 2⟩, true⟩ 1 (by decide) (by decide) (by decide)⟩

theorem chunkIterNext_preserves_max {α : Type} (dyn : α → Bool) :
    ∀ (s s' : ChunkIterState α) (p : Nat × α),
      chunkIterNext dyn s = some (some (p, s')) → s'.max_count = s.max_count := by
  intro s
  obtain ⟨fs, is, m⟩ := s
  induction fs generalizing is with
  | nil => intro s' p h; simp [chunkIterNext] at h
  | cons f fs ih =>
      intro s' p h
      cases is with
      | nil => simp [chunkIterNext] at h
      | cons i is' =>
          rw [chunkIterNext] at h
          by_cases hd : dyn f = true
          · rw [if_pos hd] at h
            have hps := Option.some.inj (Option.some.inj h)
            rw [← (Prod.mk.inj hps).2]
          · rw [if_neg hd] at h
            exact ih is' s' p h

/-- C9: for every chunk iterator, `size_hint` is `(0, Some(max_count))`
at every point during iteration, where `max_count` is fixed at
construction as the number of archetype indices in the `QueryResult`'s
underlying index slice (`result.index.len()` in the source), and is
preserved by every `next` step. -/
theorem size_hint_spec {α : Type} (mkFetch : Nat → α) (dyn : α → Bool) (r : QueryResult) :
    (chunk_iter_of mkFetch r).max_count = r.index.length ∧
    (chunk_iter_of mkFetch r).size_hint = (0, some r.index.length) ∧
    ∀ (s s' : ChunkIterState α) (p : Nat × α),
      chunkIterNext dyn s = some (some (p, s')) → s'.size_hint = s.size_hint := by
  refine ⟨rfl, rfl, ?_⟩
  intro s s' p h
  unfold ChunkIterState.size_hint
  rw [chunkIterNext_preserves_max dyn s s' p h]

/-- Witness for C9: the iterator over `{index = [3], range = 0..1}` has
size hint `(0, some 1)`, and one `next` step preserves it. -/
theorem size_hint_spec_witness :
    chunkIterNext (fun _ => true) (⟨[3], [3], 1⟩ : ChunkIterState Nat) =
      some (some ((3, 3), ⟨[], [], 1⟩)) ∧
    (⟨[], [], 1⟩ : ChunkIterState Nat).size_hint =
      (⟨[3], [3], 1⟩ : ChunkIterState Nat).size_hint ∧
    (chunk_iter_of (fun i => i) (QueryResult.unordered [3])).size_hint = (0, some 1) :=
  ⟨by simp [chunkIterNext], (size_hint_spec (fun i => i) (fun _ => true)
      (QueryResult.unordered [3])).2.2 ⟨[3], [3], 1⟩ ⟨[], [], 1⟩ (3, 3)
      (by simp [chunkIterNext]),
    (size_hint_spec (fun i => i) (fun _ => true) (QueryResult.unordered [3])).2.1⟩

/-- C3: evaluation terminates fatally (`validate_archetype_access`
panics, modelled as `none`) exactly when some archetype index in the
produced `QueryResult` is one the accessor cannot access; when every
archetype in the result is accessible, evaluation completes and returns
the result. -/
theorem validate_access_fatal (q : Query) (w : StorageAccessor) :
    (evaluate_query q w = none ↔
      ∃ i ∈ (query_result_of q w).index_slice, w.can_access_archetype i = false) ∧
    ((∀ i ∈ (query_result_of q w).index_slice, w.can_access_archetype i = true) →
      evaluate_query q w =
        some (⟨q.filter, cacheInsert q.layout_matches w.id (next_cache q w)⟩,
          query_result_of q w)) := by
  constructor
  · unfold evaluate_query
    by_cases h : (query_result_of q w).index_slice.all w.can_access_archetype = true
    · rw [if_pos h]
      simp only [List.all_eq_true] at h
      constructor
      · intro hnone; exact Option.noConfusion hnone
      · rintro ⟨i, hi, hacc⟩
        rw [h i hi] at hacc
        exact Bool.noConfusion hacc
    · rw [if_neg h]
      simp only [List.all_eq_true, not_forall] at h
      obtain ⟨i, hi, hacc⟩ := h
      exact ⟨fun _ => ⟨i, hi, Bool.eq_false_iff.mpr hacc⟩, fun _ => rfl⟩
  · intro h
    unfold evaluate_query
    rw [if_pos (List.all_eq_true.mpr h)]

/-- Witness for C3: a world whose accessor permits no archetype makes
evaluation of a matching query fatal; the same world with full access
evaluates successfully. -/
theorem validate_access_fatal_witness :
    evaluate_query ⟨.required 0, []⟩ ⟨0, [⟨[0]⟩], [], fun _ => none, fun _ => false⟩ =
      none ∧
    evaluate_query ⟨.required 0, []⟩ ⟨0, [⟨[0]⟩], [], fun _ => none, fun _ => true⟩ =
      some (⟨.required 0, [(0, Cache.unordered [0] 1)]⟩, QueryResult.unordered [0]) :=
  ⟨(validate_access_fatal ⟨.required 0, []⟩
      ⟨0, [⟨[0]⟩], [], fun _ => none, fun _ => false⟩).1.mpr ⟨0, by decide, rfl⟩,
    (validate_access_fatal ⟨.required 0, []⟩
      ⟨0, [⟨[0]⟩], [], fun _ => none, fun _ => true⟩).2 (fun i _ => rfl)⟩

/-- C1: every chunk yielded by the sequential chunk iterator built from
an `evaluate_query` result pairs an archetype admitted into the
`QueryResult` — hence one whose layout satisfies the query's static
filter — with a fetch the dynamic filter passed; the cached entries (if
any) are assumed sound and the world's groups well-formed, which is the
invariant `evaluate_query` itself maintains. -/
theorem chunk_iter_sound {α : Type} (q : Query) (w : StorageAccessor)
    (mkFetch : Nat → α) (dyn : α → Bool) (q' : Query) (r : QueryResult)
    (out : List (Nat × α))
    (hcache : ∀ c, cacheLookup q.layout_matches w.id = some c → CacheSound q.filter w c)
    (hgroup : GroupsSound q.filter w)
    (he : evaluate_query q w = some (q', r))
    (hrun : chunkIterRun dyn (chunk_iter_of mkFetch r) = some out) :
    ∀ p ∈ out, q.filter.matches (w.layout_at p.1) = true ∧ dyn p.2 = true := by
  intro p hp
  have hsound := evaluate_query_sound q w q' r hcache hgroup he
  have hmem := chunkIterRunAux_sound dyn (r.index_slice.map mkFetch) r.index out hrun p hp
  exact ⟨hsound p.1 hmem.1, hmem.2⟩

/-- Witness for C1: a fresh query `required 0` over a one-archetype
world yields exactly one chunk, whose archetype matches the filter and
whose fetch passed the (always-pass) dynamic filter. -/
theorem chunk_iter_sound_witness :
    evaluate_query ⟨.required 0, []⟩ ⟨0, [⟨[0]⟩], [], fun _ => none, fun _ => true⟩ =
      some (⟨.required 0, [(0, Cache.unordered [0] 1)]⟩, QueryResult.unordered [0]) ∧
    chunkIterRun (fun _ => true)
      (chunk_iter_of (fun i => i) (QueryResult.unordered [0])) = some [(0, 0)] ∧
    ∀ p ∈ [((0 : Nat), (0 : Nat))],
      (EntityFilter.required 0).matches
        (StorageAccessor.layout_at ⟨0, [⟨[0]⟩], [], fun _ => none, fun _ => true⟩ p.1) =
        true ∧
      (fun _ => true : Nat → Bool) p.2 = true :=
  ⟨rfl, rfl,
    chunk_iter_sound ⟨.required 0, []⟩ ⟨0, [⟨[0]⟩], [], fun _ => none, fun _ => true⟩
      (fun i => i) (fun _ => true) ⟨.required 0, [(0, Cache.unordered [0] 1)]⟩
      (QueryResult.unordered [0]) [(0, 0)]
      (fun c h => Option.noConfusion h) (fun t gi g sub h => Option.noConfusion h)
      rfl rfl⟩

theorem getD_append_length {β : Type} (l : List β) (a d : β) :
    (l ++ [a]).getD l.length d = a := by
  induction l with
  | nil => rfl
  | cons x xs ih => simpa using ih

/-- C2: for a query holding an unordered cache for the world (whose
entries are below the `seen` cursor and duplicate-free, as evaluation
maintains), evaluating resumes the layout-index search from `seen`,
appends every returned archetype index, and sets `seen` to the world's
archetype count; the result lists the cached archetypes followed by the
new ones without duplicates, and re-evaluating after a matching
archetype is appended to the world puts the new archetype's index in
the result. -/
theorem unordered_cache_incremental (q : Query) (w : StorageAccessor)
    (l : List Nat) (seen : Nat) (q' : Query) (r : QueryResult)
    (hc : cacheLookup q.layout_matches w.id = some (Cache.unordered l seen))
    (hb : ∀ i ∈ l, i < seen)
    (hnd : l.Nodup)
    (he : evaluate_query q w = some (q', r)) :
    cacheLookup q'.layout_matches w.id =
      some (Cache.unordered (l ++ search_from w.archetypes q.filter seen)
        w.archetypes.length) ∧
    r.index_slice = l ++ search_from w.archetypes q.filter seen ∧
    r.index_slice.Nodup ∧
    ∀ (w2 : StorageAccessor) (a : Archetype) (q2 : Query) (r2 : QueryResult),
      w2.id = w.id → w2.archetypes = w.archetypes ++ [a] →
      q.filter.matches a.layout = true →
      evaluate_query q' w2 = some (q2, r2) →
      w.archetypes.length ∈ r2.index_slice := by
  obtain ⟨hall, hq', hr⟩ := (evaluate_query_some_iff q w q' r).mp he
  have hnext : next_cache q w =
      Cache.unordered (l ++ search_from w.archetypes q.filter seen)
        w.archetypes.length := by
    unfold next_cache
    rw [hc]
    rfl
  have hslice : r.index_slice = l ++ search_from w.archetypes q.filter seen := by
    rw [hr]
    unfold query_result_of
    rw [hnext]
    exact index_slice_unordered _
  have hlook : cacheLookup q'.layout_matches w.id =
      some (Cache.unordered (l ++ search_from w.archetypes q.filter seen)
        w.archetypes.length) := by
    rw [hq']
    show cacheLookup (cacheInsert q.layout_matches w.id (next_cache q w)) w.id = _
    rw [cacheLookup_cacheInsert_self, hnext]
  refine ⟨hlook, hslice, ?_, ?_⟩
  · rw [hslice]
    refine List.Nodup.append hnd (search_from_nodup w.archetypes q.filter seen) ?_
    intro x hx hx'
    have h1 := hb x hx
    have h2 := ((mem_search_from w.archetypes q.filter seen x).mp hx').2.1
    omega
  · intro w2 a q2 r2 hid harch hm he2
    obtain ⟨hall2, hq2, hr2⟩ := (evaluate_query_some_iff q' w2 q2 r2).mp he2
    have hfilter : q'.filter = q.filter := by rw [hq']
    have hnext2 : next_cache q' w2 =
        Cache.unordered
          ((l ++ search_from w.archetypes q.filter seen) ++
            search_from w2.archetypes q.filter w.archetypes.length)
          w2.archetypes.length := by
      unfold next_cache
      rw [hid, hlook, hfilter]
      rfl
    have hmem : w.archetypes.length ∈
        search_from w2.archetypes q.filter w.archetypes.length := by
      refine (mem_search_from w2.archetypes q.filter
        w.archetypes.length w.archetypes.length).mpr ⟨?_, le_refl _, ?_⟩
      · rw [harch]
        simp
      · rw [harch, getD_append_length]
        exact hm
    rw [hr2]
    unfold query_result_of
    rw [hnext2]
    show w.archetypes.length ∈ (QueryResult.unordered _).index_slice
    rw [index_slice_unordered]
    exact List.mem_append.mpr (Or.inr hmem)

/-- Witness for C2: a query caching `{archetypes = [0], seen = 1}` for
world 7 re-evaluates to the same result; after a matching archetype is
appended to the world, re-evaluation surfaces the new index 1. -/
theorem unordered_cache_incremental_witness :
    cacheLookup [(7, Cache.unordered [0] 1)] 7 = some (Cache.unordered [0] 1) ∧
    (∀ i ∈ [0], i < 1) ∧
    ([0] : List Nat).Nodup ∧
    evaluate_query ⟨.required 1, [(7, Cache.unordered [0] 1)]⟩
        ⟨7, [⟨[1]⟩], [], fun _ => none, fun _ => true⟩ =
      some (⟨.required 1, [(7, Cache.unordered [0] 1)]⟩, QueryResult.unordered [0]) ∧
    (QueryResult.unordered [0]).index_slice = [0] ++ [] ∧
    (1 : Nat) ∈ (QueryResult.unordered [0, 1]).index_slice :=
  ⟨rfl, by decide, by decide, rfl,
    (unordered_cache_incremental ⟨.required 1, [(7, Cache.unordered [0] 1)]⟩
      ⟨7, [⟨[1]⟩], [], fun _ => none, fun _ => true⟩ [0] 1
      ⟨.required 1, [(7, Cache.unordered [0] 1)]⟩ (QueryResult.unordered [0])
      rfl (by decide) (by decide) rfl).2.1,
    (unordered_cache_incremental ⟨.required 1, [(7, Cache.unordered [0] 1)]⟩
      ⟨7, [⟨[1]⟩], [], fun _ => none, fun _ => true⟩ [0] 1
      ⟨.required 1, [(7, Cache.unordered [0] 1)]⟩ (QueryResult.unordered [0])
      rfl (by decide) (by decide) rfl).2.2.2
      ⟨7, [⟨[1]⟩, ⟨[1]⟩], [], fun _ => none, fun _ => true⟩ ⟨[1]⟩
      ⟨.required 1, [(7, Cache.unordered [0, 1] 2)]⟩ (QueryResult.unordered [0, 1])
      rfl rfl rfl rfl⟩

/-- C4: evaluating a query against a world with no cache entry
initializes the cache as the source does: when the group chain (first
required component, world group lookup, `exact_match`) succeeds, an
ordered cache is created and the result is the group's subrange slice
with `ordered = true`; in every other case an unordered cache is created
(starting empty with `seen = 0`, then refreshed from cursor 0) and the
result is the cache's vector with `ordered = false`. -/
theorem evaluate_query_init_cases (q : Query) (w : StorageAccessor)
    (q' : Query) (r : QueryResult)
    (h0 : cacheLookup q.layout_matches w.id = none)
    (he : evaluate_query q w = some (q', r)) :
    (∀ c, group_cache q.filter w = some c →
      ∃ t gi g sub, q.filter.can_match_group = true ∧
        q.filter.group_components.head? = some t ∧
        w.group t = some (gi, g) ∧
        g.exact_match q.filter.group_components = some sub ∧
        c = Cache.ordered gi sub) ∧
    (∀ gi sub, group_cache q.filter w = some (Cache.ordered gi sub) →
      cacheLookup q'.layout_matches w.id = some (Cache.ordered gi sub) ∧
      r = QueryResult.ordered ((w.groups.getD gi default).slice sub) ∧
      r.is_ordered = true) ∧
    (group_cache q.filter w = none →
      cacheLookup q'.layout_matches w.id =
        some (Cache.unordered (search_from w.archetypes q.filter 0)
          w.archetypes.length) ∧
      r = QueryResult.unordered (search_from w.archetypes q.filter 0) ∧
      r.is_ordered = false) := by
  obtain ⟨hall, hq', hr⟩ := (evaluate_query_some_iff q w q' r).mp he
  refine ⟨fun c hgc => group_cache_some_elim q.filter w c hgc, ?_, ?_⟩
  · intro gi sub hgc
    have hnext : next_cache q w = Cache.ordered gi sub := by
      unfold next_cache init_cache
      rw [h0, hgc]
      rfl
    refine ⟨?_, ?_, ?_⟩
    · rw [hq']
      show cacheLookup (cacheInsert q.layout_matches w.id (next_cache q w)) w.id = _
      rw [cacheLookup_cacheInsert_self, hnext]
    · rw [hr]
      unfold query_result_of
      rw [hnext]
      rfl
    · rw [hr]
      unfold query_result_of
      rw [hnext]
      rfl
  · intro hgc
    have hnext : next_cache q w =
        Cache.unordered (search_from w.archetypes q.filter 0)
          w.archetypes.length := by
      unfold next_cache init_cache
      rw [h0, hgc]
      show update_cache q.filter w (Cache.unordered [] 0) = _
      show Cache.unordered ([] ++ search_from w.archetypes q.filter 0)
        w.archetypes.length = _
      rw [List.nil_append]
    refine ⟨?_, ?_, ?_⟩
    · rw [hq']
      show cacheLookup (cacheInsert q.layout_matches w.id (next_cache q w)) w.id = _
      rw [cacheLookup_cacheInsert_self, hnext]
    · rw [hr]
      unfold query_result_of
      rw [hnext]
      rfl
    · rw [hr]
      unfold query_result_of
      rw [hnext]
      rfl

/-- Witness for C4, ordered branch: a world with one declared group
indexed by component 5 whose `exact_match` on `[5]` returns the subrange
`(0, 1)`; the fresh query `required 5` receives an ordered cache and the
group's subrange slice `[2]` as an ordered result. -/
theorem evaluate_query_init_cases_witness :
    cacheLookup ([] : List (Nat × Cache)) 3 = none ∧
    evaluate_query ⟨.required 5, []⟩
        ⟨3, [⟨[9]⟩, ⟨[9, 5]⟩, ⟨[5]⟩],
          [⟨[2], fun cs => if cs = [5] then some ⟨0, 1⟩ else none⟩],
          (fun t => if t = 5 then
            some (0, ⟨[2], fun cs => if cs = [5] then some ⟨0, 1⟩ else none⟩)
          else none),
          fun _ => true⟩ =
      some (⟨.required 5, [(3, Cache.ordered 0 ⟨0, 1⟩)]⟩, QueryResult.ordered [2]) ∧
    (cacheLookup [(3, Cache.ordered 0 ⟨0, 1⟩)] 3 = some (Cache.ordered 0 ⟨0, 1⟩) ∧
      QueryResult.ordered [2] = QueryResult.ordered [2] ∧
      (QueryResult.ordered [2]).is_ordered = true) :=
  ⟨rfl, rfl,
    (evaluate_query_init_cases ⟨.required 5, []⟩
      ⟨3, [⟨[9]⟩, ⟨[9, 5]⟩, ⟨[5]⟩],
        [⟨[2], fun cs => if cs = [5] then some ⟨0, 1⟩ else none⟩],
        (fun t => if t = 5 then
          some (0, ⟨[2], fun cs => if cs = [5] then some ⟨0, 1⟩ else none⟩)
        else none),
        fun _ => true⟩
      ⟨.required 5, [(3, Cache.ordered 0 ⟨0, 1⟩)]⟩ (QueryResult.ordered [2])
      rfl rfl).2.1 0 ⟨0, 1⟩ rfl⟩

/-- C6 (refuting computation): `ParChunkIter::split` computes the
midpoint as `result.len() / 2` but passes it to `split_at` as an
absolute position.  On the subrange `2..4` of a four-element slice —
reached by one split of a freshly evaluated four-archetype result — the
midpoint is `1`, so the returned producer covers `1..4` (archetypes
`[11, 12, 13]`) with no sibling: the union of the returned subranges is
not the original subrange `[12, 13]`, contradicting the claim. -/
theorem par_split_bug :
    par_split (⟨[10, 11, 12, 13], ⟨0, 4⟩, false⟩ : QueryResult) =
      (⟨[10, 11, 12, 13], ⟨2, 4⟩, false⟩, some ⟨[10, 11, 12, 13], ⟨0, 2⟩, false⟩) ∧
    par_split (⟨[10, 11, 12, 13], ⟨2, 4⟩, false⟩ : QueryResult) =
      (⟨[10, 11, 12, 13], ⟨1, 4⟩, false⟩, none) ∧
    (⟨[10, 11, 12, 13], ⟨1, 4⟩, false⟩ : QueryResult).index_slice = [11, 12, 13] ∧
    (⟨[10, 11, 12, 13], ⟨2, 4⟩, false⟩ : QueryResult).index_slice = [12, 13] :=
  ⟨rfl, rfl, rfl, rfl⟩

/-- C7 (refuting computation): a parallel leaf built by `fold_with` over
the subrange `1..2` of the slice `[10, 11]` — produced by one split —
pairs its single fetch (taken from archetype 11, the only index in the
subrange) with archetype index 10, because `fold_with` iterates the full
underlying `result.index` slice while the view fetch iterator walks only
`result.index()`; the lockstep pairing the claim states is violated.
(The sequential iteration over the full range `0..2` is in lockstep.) -/
theorem fold_with_lockstep_bug :
    run_chunks (fun i => i) (fun _ => true) (⟨[10, 11], ⟨0, 2⟩, false⟩ : QueryResult) =
      some [(10, 10), (11, 11)] ∧
    par_split (⟨[10, 11], ⟨0, 2⟩, false⟩ : QueryResult) =
      (⟨[10, 11], ⟨1, 2⟩, false⟩, some ⟨[10, 11], ⟨0, 1⟩, false⟩) ∧
    run_chunks (fun i => i) (fun _ => true) (⟨[10, 11], ⟨1, 2⟩, false⟩ : QueryResult) =
      some [(10, 11)] ∧
    (10 : Nat) ≠ 11 :=
  ⟨rfl, rfl, rfl, by decide⟩

/-- C5 (refuting computation): splitting the freshly evaluated
two-archetype result `[20, 21]` once and folding both leaves yields the
chunks `(20, fetch-of-20)` and `(20, fetch-of-21)`, while the sequential
iteration yields `(20, fetch-of-20)` and `(21, fetch-of-21)`; the two
multisets differ, refuting parallel/sequential multiset equality. -/
theorem par_equivalence_bug :
    run_chunks (fun i => i) (fun _ => true) (QueryResult.unordered [20, 21]) =
      some [(20, 20), (21, 21)] ∧
    par_split (QueryResult.unordered [20, 21]) =
      (⟨[20, 21], ⟨1, 2⟩, false⟩, some ⟨[20, 21], ⟨0, 1⟩, false⟩) ∧
    run_chunks (fun i => i) (fun _ => true) (⟨[20, 21], ⟨0, 1⟩, false⟩ : QueryResult) =
      some [(20, 20)] ∧
    run_chunks (fun i => i) (fun _ => true) (⟨[20, 21], ⟨1, 2⟩, false⟩ : QueryResult) =
      some [(20, 21)] ∧
    ¬ List.Perm ([(20, 20)] ++ [(20, 21)]) [(20, 20), (21, 21)] :=
  ⟨rfl, rfl, rfl, rfl, by decide⟩
